import Mathlib

/-
Verification of src/reflow.rs (crate text_reflow).

The text is modelled as a `List Char` (Rust `&str` viewed as its sequence of
Unicode scalar values). Machine floats (`f32`) appear in the source only in
the short-line test `line_width / avg_line_length < threshold_ratio`; the
comparison is modelled with full IEEE-754 binary32 semantics: the two integer
operands are rounded to f32, their quotient is rounded to f32
(round-to-nearest, ties-to-even, subnormals and overflow-to-infinity
included), and the rounded quotient — an exact dyadic rational — is compared
with the threshold by integer cross-multiplication, the division-by-zero case
(+inf or NaN, never below a finite threshold) rendered as `false`.  `usize`
is modelled as ℕ with `usize::MAX = 2^64 - 1`.
-/

namespace TextReflow

set_option maxRecDepth 100000

/-- Modelled from the Rust standard library (dependency of src/reflow.rs):
`char::is_whitespace`, true exactly for the code points with the Unicode
White_Space property. -/
def isRustWhitespace (c : Char) : Bool :=
  ([0x09, 0x0A, 0x0B, 0x0C, 0x0D, 0x20, 0x85, 0xA0, 0x1680,
    0x2000, 0x2001, 0x2002, 0x2003, 0x2004, 0x2005, 0x2006, 0x2007,
    0x2008, 0x2009, 0x200A, 0x2028, 0x2029, 0x202F, 0x205F, 0x3000] : List Nat).contains c.toNat

/-- Modelled from the Rust standard library: `str::trim_start`. -/
def trimStart (l : List Char) : List Char := l.dropWhile isRustWhitespace

/-- Modelled from the Rust standard library: `str::trim_end`. -/
def trimEnd (l : List Char) : List Char := (l.reverse.dropWhile isRustWhitespace).reverse

/-- Modelled from the Rust standard library: `str::trim` (leading and trailing
whitespace removed). -/
def trim (l : List Char) : List Char := trimEnd (trimStart l)

/-- Modelled from the unicode-width crate (external dependency used at
src/reflow.rs:18): display-column width of one scalar value — 0 for controls
and combining marks, 2 for East-Asian wide/fullwidth ranges, 1 otherwise.
Only the ranges relevant to this development are tabulated. -/
def charWidth (c : Char) : Nat :=
  let n := c.toNat
  if n < 0x20 then 0
  else if n < 0x7F then 1
  else if n < 0xA0 then 0
  else if 0x0300 ≤ n ∧ n ≤ 0x036F then 0
  else if 0x1100 ≤ n ∧ n ≤ 0x115F then 2
  else if 0x2E80 ≤ n ∧ n ≤ 0x303E then 2
  else if 0x3041 ≤ n ∧ n ≤ 0x33FF then 2
  else if 0x3400 ≤ n ∧ n ≤ 0x4DBF then 2
  else if 0x4E00 ≤ n ∧ n ≤ 0x9FFF then 2
  else if 0xA000 ≤ n ∧ n ≤ 0xA4CF then 2
  else if 0xAC00 ≤ n ∧ n ≤ 0xD7A3 then 2
  else if 0xF900 ≤ n ∧ n ≤ 0xFAFF then 2
  else if 0xFE30 ≤ n ∧ n ≤ 0xFE4F then 2
  else if 0xFF00 ≤ n ∧ n ≤ 0xFF60 then 2
  else if 0xFFE0 ≤ n ∧ n ≤ 0xFFE6 then 2
  else 1

/-- Modelled from the unicode-width crate: `UnicodeWidthStr::width`, the sum of
the per-scalar display widths. -/
def visualWidth (l : List Char) : Nat := (l.map charWidth).sum

/-- Modelled from the Rust standard library: `str::len`, the UTF-8 byte length. -/
def byteLen (l : List Char) : Nat := (l.map Char.utf8Size).sum

/-- The pieces of a character list split at every `'\n'` (the split that
underlies Rust `str::lines`); always returns at least one (possibly empty)
piece, mirroring `split('\n')`. -/
def splitNl : List Char → List (List Char)
  | [] => [[]]
  | c :: rest =>
    if c = '\n' then [] :: splitNl rest
    else
      match splitNl rest with
      | [] => [[c]]
      | p :: ps => (c :: p) :: ps

/-- Strip one trailing carriage return, as Rust `str::lines` does on pieces
that were terminated by `"\r\n"`. -/
def stripCr (l : List Char) : List Char :=
  if l.getLast? = some '\r' then l.dropLast else l

/-- Turn the raw split pieces into the lines Rust `str::lines` yields: every
terminated piece loses one trailing `'\r'`; a final unterminated piece is kept
verbatim, and a final empty piece (from a trailing terminator) is dropped. -/
def linesAux : List (List Char) → List (List Char)
  | [] => []
  | [p] => if p = [] then [] else [p]
  | p :: q :: ps => stripCr p :: linesAux (q :: ps)

/-- Modelled from the Rust standard library: `str::lines`, as used at
src/reflow.rs:42, 74 and 108. -/
def strLines (l : List Char) : List (List Char) := linesAux (splitNl l)

/-- Modelled from the Rust standard library: `usize::checked_div`, `None`
exactly when the divisor is zero. -/
def checkedDiv (a b : Nat) : Option Nat := if b = 0 then none else some (a / b)

/-- The average line length actually used by `reflow_text`
(src/reflow.rs:77): the sum of the raw (untrimmed) byte lengths of the lines,
integer-divided by the number of lines, with fallback 0 when there are no
lines (`checked_div(..).unwrap_or(0)`). -/
def avgOf (text : List Char) : Nat :=
  match checkedDiv ((strLines text).map byteLen).sum (strLines text).length with
  | some v => v
  | none => 0

/-- src/reflow.rs:24-32 — the comprehensive list of sentence-ending
punctuation marks, reproduced verbatim in source order. -/
def sentence_ending_punctuations : List Char :=
  ['.', '܂', '。',
   '։', ':', '፡', '：',
   '!', '！',
   '?', '？',
   '”', '᠉',
   '᠃', '᠁', '…',
   ';', '；', '؟', '।', '۔', '܀', '܁', '።', '፧', '፨', '᙮', 'ክ', 'ዼ']

/-- Two to a nonnegative integer power, as a natural number (`2^0` when `e`
is negative). -/
def twoPowNat (e : ℤ) : ℕ := 2 ^ e.toNat

/-- Whether `2^e ≤ p / q` for a positive rational `p / q`, decided by integer
cross-multiplication. -/
def twoPowLe (e : ℤ) (p q : ℕ) : Bool :=
  if 0 ≤ e then decide (q * twoPowNat e ≤ p) else decide (q ≤ p * twoPowNat (-e))

/-- Scan exponents downward from `(fuel - 1) - 150`: the largest exponent `e`
in `[-150, 152]` with `2^e ≤ p/q`, and the sentinel `-151` when `p/q` is
smaller still. -/
def findExpAux (p q : ℕ) : ℕ → ℤ
  | 0 => -151
  | n + 1 => if twoPowLe ((n : ℤ) - 150) p q then (n : ℤ) - 150 else findExpAux p q n

/-- The binade of the positive rational `p / q` (largest `e` with
`2^e ≤ p/q`), clamped to `[-151, 152]`.  The clamp loses nothing for binary32
rounding: any binade below `-151` uses the same subnormal grid `2^-149` as
binade `-151`, and any value in binade `153` or above rounds to +infinity
exactly as the clamped computation reports (its floor on the `2^129` grid is
at least `2^24`, so the overflow test fires). -/
def findExp (p q : ℕ) : ℤ := findExpAux p q 303

/-- Modelled from IEEE-754 binary32 (the `f32` semantics of the source's
dependency-free arithmetic at src/reflow.rs:18-21): round the positive
rational `p / q` (`q ≠ 0`) to the binary32 grid with round-to-nearest,
ties-to-even.  The grid step is `2^(e₂-23)` in the normal binades
(`e₂ ≥ -126`, 24-bit significands) and `2^-149` below (subnormals and zero).
`none` is +infinity: after rounding, any value of `2^128` or more overflows,
the IEEE overflow rule.  A result `some (m, g)` denotes the exact value
`m * 2^g`. -/
def roundF32Pos (p q : ℕ) : Option (ℕ × ℤ) :=
  if p = 0 then some (0, 0)
  else
    let g : ℤ := max (findExp p q - 23) (-149)
    let pScaled : ℕ := p * twoPowNat (max (-g) 0)
    let qScaled : ℕ := q * twoPowNat (max g 0)
    let m0 : ℕ := pScaled / qScaled
    let r : ℕ := pScaled % qScaled
    let m : ℕ :=
      if 2 * r < qScaled then m0
      else if qScaled < 2 * r then m0 + 1
      else if m0 % 2 = 0 then m0 else m0 + 1
    let overflow : Bool :=
      if 0 ≤ g then decide (2 ^ 128 ≤ m * twoPowNat g)
      else decide (2 ^ 128 * twoPowNat (-g) ≤ m)
    if overflow then none else some (m, g)

/-- Whether the dyadic value `m * 2^e` is strictly below the rational `r`,
decided by integer cross-multiplication. -/
def dyadicLtRat (m : ℕ) (e : ℤ) (r : ℚ) : Bool :=
  if 0 ≤ e then decide (((m * twoPowNat e : ℕ) : ℤ) * (r.den : ℤ) < r.num)
  else decide ((m : ℤ) * (r.den : ℤ) < r.num * ((twoPowNat (-e) : ℕ) : ℤ))

/-- The f32 short-line comparison `(w as f32) / (b as f32) < r` of
src/reflow.rs:21, with IEEE-754 binary32 semantics: each integer operand is
rounded to f32 (exact below 2^24), the quotient of the rounded operands is
rounded to f32 again, and the rounded quotient is compared with the
threshold.  For `b = 0` the quotient is +inf (`w > 0`) or NaN (`w = 0`) and
either way the strict comparison with a finite threshold is false; an
infinite `w` over a finite `b` is likewise +inf and compares false; a finite
`w` over an infinite `b` is +0. -/
def fdivLt (w b : Nat) (r : ℚ) : Bool :=
  if b = 0 then false
  else
    match roundF32Pos w 1, roundF32Pos b 1 with
    | none, none => false
    | none, some _ => false
    | some _, none => decide (0 < r)
    | some (mw, ew), some (mb, eb) =>
      if mw = 0 then decide (0 < r)
      else
        match roundF32Pos (mw * twoPowNat (max (ew - eb) 0))
            (mb * twoPowNat (max (eb - ew) 0)) with
        | none => false
        | some (m, g) => dyadicLtRat m g r

/-- The value of the IEEE f32 quotient `(w as f32) / (b as f32)` as an exact
rational, `none` for an infinite or NaN quotient; mirrors `fdivLt` branch by
branch, so that the short-line test reads: the rounded quotient is finite and
strictly below the threshold. -/
def f32Quot (w b : Nat) : Option ℚ :=
  if b = 0 then none
  else
    match roundF32Pos w 1, roundF32Pos b 1 with
    | none, none => none
    | none, some _ => none
    | some _, none => some 0
    | some (mw, ew), some (mb, eb) =>
      if mw = 0 then some 0
      else
        match roundF32Pos (mw * twoPowNat (max (ew - eb) 0))
            (mb * twoPowNat (max (eb - ew) 0)) with
        | none => none
        | some (m, g) => some ((m : ℚ) * (2 : ℚ) ^ g)

/-- src/reflow.rs:16-39 — `is_natural_paragraph_break`: the line is a break
iff it is short relative to the average (visual width of the trimmed line over
the average below the threshold) and its trimmed text ends with one of the
sentence-ending punctuation marks (`str::ends_with(char)` is a test on the
last character). -/
def is_natural_paragraph_break (line : List Char) (avg_line_length : Nat) (thr : ℚ) : Bool :=
  let line_width := visualWidth (trim line)
  let is_short_line := fdivLt line_width avg_line_length thr
  let ends_with_punctuation :=
    sentence_ending_punctuations.any (fun p => (trim line).getLast? == some p)
  is_short_line && ends_with_punctuation

/-- src/reflow.rs:41-45 — `calculate_average_line_length` (dead code: defined
in the source but never called by `reflow_text`): float mean of the trimmed
visual widths.  With zero lines the f32 value is NaN; ℚ renders it as 0. -/
def calculate_average_line_length (text : List Char) : ℚ :=
  ((((strLines text).map (fun l => visualWidth (trim l))).sum : ℚ)) / ((strLines text).length : ℚ)

/-- The value of the f32 literal `0.9` (src/reflow.rs:55): the nearest
binary32 to 9/10 is 15099494 × 2⁻²⁴ = 7549747/8388608. -/
def f32of09 : ℚ := ⟨7549747, 8388608, by norm_num, by norm_num⟩

/-- The binary32 nearest to 2/3: 11184811 × 2⁻²⁴, which lies strictly above
2/3 (11184811 · 3 = 33554433 > 2 · 2²⁴ = 33554432).  A threshold in (0, 1]
at which the rounded f32 quotient 2/3 compares differently from the exact
ratio 2/3. -/
def f32of2of3 : ℚ := ⟨11184811, 16777216, by norm_num, by norm_num⟩

/-- Modelled from the Rust standard library: `usize::MAX` on a 64-bit target. -/
def usizeMax : Nat := 2 ^ 64 - 1

/-- src/reflow.rs:47-50 — `ReflowOptions`.  The field `threshold` carries the
source's `threshold_ratio`. -/
structure ReflowOptions where
  threshold : ℚ
  para_chars_limit : Nat

/-- src/reflow.rs:52-59 — `Default for ReflowOptions`: threshold 0.9f32,
paragraph character limit `usize::MAX` (the unbounded sentinel). -/
def ReflowOptions.default : ReflowOptions := ⟨f32of09, usizeMax⟩

/-- src/reflow.rs:83-104 — the merger loop, one step per line, carrying the
running index (compared against `lines.len() - 1`) and the buffer.  The two
arms of the source's `if !buffer.is_empty()` are identical and are mirrored
as written. -/
def mergeLoop (avg : Nat) (thr : ℚ) (total : Nat) : Nat → List (List Char) → List Char → List Char
  | _, [], buffer => buffer
  | index, line :: rest, buffer =>
    if is_natural_paragraph_break line avg thr then
      mergeLoop avg thr total (index + 1) rest
        (if buffer.isEmpty then buffer ++ line ++ ['\n'] else buffer ++ line ++ ['\n'])
    else
      mergeLoop avg thr total (index + 1) rest
        (buffer ++ line ++ (if index ≠ total - 1 then [' '] else []))

/-- The merger of src/reflow.rs:80-104 run on a list of lines. -/
def buildBuffer (avg : Nat) (thr : ℚ) (ls : List (List Char)) : List Char :=
  mergeLoop avg thr ls.length 0 ls []

/-- The intermediate buffer of `reflow_text` (src/reflow.rs:80-104) for a
given input text and options. -/
def mergerBuffer (text : List Char) (opts : ReflowOptions) : List Char :=
  buildBuffer (avgOf text) opts.threshold (strLines text)

/-- Hard split of an over-long word into consecutive pieces of at most
`limit` characters (at least 1, so the degenerate `limit = 0` still
terminates). -/
def chunks (limit : Nat) : List Char → List (List Char)
  | [] => []
  | c :: rest => (c :: rest.take (limit - 1)) :: chunks limit (rest.drop (limit - 1))
termination_by l => l.length
decreasing_by
  simp only [List.length_cons, List.length_drop]
  omega

/-- The maximal whitespace-free runs of a paragraph, in order — the words the
wrapper packs. -/
def splitWords : List Char → List (List Char)
  | [] => []
  | c :: rest =>
    if isRustWhitespace c then splitWords rest
    else
      (c :: rest.takeWhile (fun d => !(isRustWhitespace d))) ::
        splitWords (rest.dropWhile (fun d => !(isRustWhitespace d)))
termination_by l => l.length
decreasing_by
  all_goals simp only [List.length_cons]
  · omega
  · exact Nat.lt_succ_of_le ((List.dropWhile_sublist _).length_le)

/-- Words with every over-long word hard-split to fit the limit. -/
def fitWords (limit : Nat) (ws : List (List Char)) : List (List Char) :=
  match ws with
  | [] => []
  | w :: rest => (if w.length ≤ limit then [w] else chunks limit w) ++ fitWords limit rest

/-- Greedy packing of fitting words into lines of at most `limit` characters,
separated by single spaces. -/
def packLoop (limit : Nat) : List (List Char) → List Char → List (List Char)
  | [], cur => [cur]
  | w :: ws, cur =>
    if cur.length + 1 + w.length ≤ limit then packLoop limit ws (cur ++ ' ' :: w)
    else cur :: packLoop limit ws w

/-- Modelled from the textwrap crate (external dependency called at
src/reflow.rs:119): word-boundary wrapping of one paragraph into lines of at
most `limit` characters, hard-splitting any word longer than the limit, as
the spec describes (greedy packing; the width measure is the character count,
which coincides with display columns on the ASCII scenarios of the source's
tests). -/
def wrapGreedy (limit : Nat) (paragraph : List Char) : List (List Char) :=
  match fitWords limit (splitWords paragraph) with
  | [] => [[]]
  | w :: ws => packLoop limit ws w

/-- Each produced line followed by one `'\n'`, the shape in which both
branches of the rewrap loop push into `result`. -/
def joinTerm : List (List Char) → List Char
  | [] => []
  | p :: ps => p ++ '\n' :: joinTerm ps

/-- src/reflow.rs:107-125 — the rewrap pass: each paragraph of the buffer is
kept when its character count is within the limit and wrapped otherwise, each
emitted line followed by a newline. -/
def rewrap (limit : Nat) (buffer : List Char) : List Char :=
  (strLines buffer).foldl
    (fun result paragraph =>
      if paragraph.length ≤ limit then result ++ paragraph ++ ['\n']
      else result ++ joinTerm (wrapGreedy limit paragraph))
    []

/-- src/reflow.rs:69-130 — `reflow_text`: resolve the options, build the
merger buffer, rewrap it, and pop the final character (the trailing
newline, when the result is nonempty). -/
def reflow_text (text : List Char) (options : Option ReflowOptions) : List Char :=
  let opts := options.getD ReflowOptions.default
  (rewrap opts.para_chars_limit (mergerBuffer text opts)).dropLast

/-- The pieces the rewrap pass of src/reflow.rs:108-125 emits, in order: a
paragraph within the limit stands alone, an over-long paragraph contributes
its wrapped lines. -/
def rewrapPieces (limit : Nat) : List (List Char) → List (List Char)
  | [] => []
  | p :: ps => (if p.length ≤ limit then [p] else wrapGreedy limit p) ++ rewrapPieces limit ps

/-- Modelled from the spec's words for claim C1: the arithmetic mean, as an
exact rational, of the per-line raw byte lengths taken after trimming each
line, and 0 for an input with zero lines.  Stated for comparison with
`avgOf`, the baseline the code actually computes. -/
def claimedBaseline (text : List Char) : ℚ :=
  if (strLines text).length = 0 then 0
  else (((strLines text).map (fun l => byteLen (trim l))).sum : ℚ) / ((strLines text).length : ℚ)

/-- The last non-whitespace character of a line (the claim's phrasing of the
punctuation test of src/reflow.rs:35). -/
def lastNonWsChar (line : List Char) : Option Char :=
  (line.reverse.dropWhile isRustWhitespace).head?

/-- Modelled from the spec's words for claim C3: the left-to-right fold that
appends a breaking line plus a newline, and a non-breaking line plus a single
space except after the last line overall.  Stated for comparison with
`buildBuffer`, the loop the code actually runs. -/
def mergerSpec (avg : Nat) (thr : ℚ) : List (List Char) → List Char
  | [] => []
  | [line] => if is_natural_paragraph_break line avg thr then line ++ ['\n'] else line
  | line :: next :: rest =>
    if is_natural_paragraph_break line avg thr then
      line ++ '\n' :: mergerSpec avg thr (next :: rest)
    else
      line ++ ' ' :: mergerSpec avg thr (next :: rest)

/-- The partition of the input lines into paragraph groups: a breaking line
closes the group it belongs to; a final group may be left unclosed. -/
def paraGroups (avg : Nat) (thr : ℚ) : List (List Char) → List (List (List Char))
  | [] => []
  | line :: rest =>
    if is_natural_paragraph_break line avg thr then [line] :: paraGroups avg thr rest
    else
      match paraGroups avg thr rest with
      | [] => [[line]]
      | g :: gs => (line :: g) :: gs

/-- The texts of a group's lines joined by single spaces (the spec's notion
of a paragraph's content). -/
def joinSp : List (List Char) → List Char
  | [] => []
  | [l] => l
  | l :: next :: rest => l ++ ' ' :: joinSp (next :: rest)

/-- Whether a group's final line is a natural paragraph break (such a group
was closed by the classifier and is newline-terminated in the buffer). -/
def endsWithBreak (avg : Nat) (thr : ℚ) (g : List (List Char)) : Bool :=
  match g.getLast? with
  | some l => is_natural_paragraph_break l avg thr
  | none => false

/-- A group's contribution to the merger buffer: its lines joined by single
spaces, and a terminating newline exactly when its final line is a break. -/
def renderGroup (avg : Nat) (thr : ℚ) (g : List (List Char)) : List Char :=
  joinSp g ++ (if endsWithBreak avg thr g then ['\n'] else [])

/-- Concatenation of the group renderings. -/
def renderAll (avg : Nat) (thr : ℚ) : List (List (List Char)) → List Char
  | [] => []
  | g :: gs => renderGroup avg thr g ++ renderAll avg thr gs

/-- A buffer with its trailing newline (when present) removed — the shape of
`reflow_text`'s output relative to the merger buffer when no paragraph is
rewrapped. -/
def stripNl (b : List Char) : List Char :=
  if b.getLast? = some '\n' then b.dropLast else b

/-- The multiset of non-whitespace characters of a text. -/
def nonWsChars (l : List Char) : Multiset Char :=
  (l.filter (fun c => !(isRustWhitespace c)) : List Char)

/-- The split pieces joined back with single newlines (inverse of `splitNl`). -/
def joinNl : List (List Char) → List Char
  | [] => []
  | [p] => p
  | p :: q :: ps => p ++ '\n' :: joinNl (q :: ps)

/-! ## Helper lemmas -/

theorem f32of09_eq : f32of09 = 7549747 / 8388608 := by
  rw [f32of09, Rat.mk'_eq_divInt, Rat.divInt_eq_div]
  norm_num

theorem f32of09_pos : 0 < f32of09 := by rw [f32of09_eq]; norm_num

theorem f32of09_le_one : f32of09 ≤ 1 := by rw [f32of09_eq]; norm_num

theorem dropWhile_append_of_ne_nil (p : Char → Bool) (A B : List Char)
    (h : A.dropWhile p ≠ []) : (A ++ B).dropWhile p = A.dropWhile p ++ B := by
  induction A with
  | nil => exact absurd rfl h
  | cons a A ih =>
    by_cases hp : p a
    · rw [List.cons_append, List.dropWhile_cons_of_pos hp, List.dropWhile_cons_of_pos hp]
      exact ih (by rwa [List.dropWhile_cons_of_pos hp] at h)
    · rw [List.cons_append, List.dropWhile_cons_of_neg (by simpa using hp),
        List.dropWhile_cons_of_neg (by simpa using hp), List.cons_append]

theorem dropWhile_append_of_eq_nil (p : Char → Bool) (A B : List Char)
    (h : A.dropWhile p = []) : (A ++ B).dropWhile p = B.dropWhile p := by
  induction A with
  | nil => rfl
  | cons a A ih =>
    by_cases hp : p a
    · rw [List.cons_append, List.dropWhile_cons_of_pos hp]
      exact ih (by rwa [List.dropWhile_cons_of_pos hp] at h)
    · rw [List.dropWhile_cons_of_neg (by simpa using hp)] at h
      exact absurd h (by simp)

theorem head?_append_of_ne_nil (A B : List Char) (h : A ≠ []) :
    (A ++ B).head? = A.head? := by
  cases A with
  | nil => exact absurd rfl h
  | cons a A => rfl

/-- The last character of the trimmed line is the last non-whitespace
character of the line. -/
theorem trim_getLast? (line : List Char) :
    (trim line).getLast? = lastNonWsChar line := by
  unfold trim trimEnd trimStart lastNonWsChar
  rw [List.getLast?_reverse]
  have hsplit : line.reverse =
      (line.dropWhile isRustWhitespace).reverse ++ (line.takeWhile isRustWhitespace).reverse := by
    rw [← List.reverse_append, List.takeWhile_append_dropWhile]
  rw [hsplit]
  by_cases h : (line.dropWhile isRustWhitespace).reverse.dropWhile isRustWhitespace = []
  · rw [dropWhile_append_of_eq_nil _ _ _ h, h]
    have : (line.takeWhile isRustWhitespace).reverse.dropWhile isRustWhitespace = [] := by
      rw [List.dropWhile_eq_nil_iff]
      intro a ha
      exact List.mem_takeWhile_imp (List.mem_reverse.mp ha)
    rw [this]
  · rw [dropWhile_append_of_ne_nil _ _ _ h, head?_append_of_ne_nil _ _ h]

/-- The source's `ends_with` scan over the punctuation array, restated as
membership of the line's last non-whitespace character. -/
theorem any_endsWith_iff (line : List Char) :
    (sentence_ending_punctuations.any fun p => (trim line).getLast? == some p) = true ↔
      ∃ c, lastNonWsChar line = some c ∧ c ∈ sentence_ending_punctuations := by
  rw [List.any_eq_true]
  constructor
  · rintro ⟨p, hp, he⟩
    refine ⟨p, ?_, hp⟩
    rw [← trim_getLast?]
    exact beq_iff_eq.mp he
  · rintro ⟨c, hc, hmem⟩
    refine ⟨c, hmem, ?_⟩
    rw [beq_iff_eq, trim_getLast?]
    exact hc

/-- The cross-multiplied comparison is the exact rational division test,
together with positivity of the denominator. -/
theorem f32of2of3_eq : f32of2of3 = 11184811 / 16777216 := by
  rw [f32of2of3, Rat.mk'_eq_divInt, Rat.divInt_eq_div]
  norm_num

theorem int_lt_rat (z : ℤ) (r : ℚ) : z * (r.den : ℤ) < r.num ↔ (z : ℚ) < r := by
  have hden : (0 : ℚ) < (r.den : ℚ) := by exact_mod_cast r.pos
  conv_rhs => rw [← Rat.num_div_den r]
  rw [lt_div_iff₀ hden]
  constructor <;> intro h <;> exact_mod_cast h

/-- The cross-multiplied dyadic comparison is the exact value comparison. -/
theorem dyadicLtRat_iff (m : ℕ) (e : ℤ) (r : ℚ) :
    dyadicLtRat m e r = true ↔ (m : ℚ) * (2 : ℚ) ^ e < r := by
  unfold dyadicLtRat
  by_cases he : 0 ≤ e
  · rw [if_pos he, decide_eq_true_eq, int_lt_rat]
    have hval : (((m * twoPowNat e : ℕ) : ℤ) : ℚ) = (m : ℚ) * (2 : ℚ) ^ e := by
      push_cast [twoPowNat]
      rw [← zpow_natCast (2 : ℚ) e.toNat, Int.toNat_of_nonneg he]
    rw [hval]
  · rw [if_neg he, decide_eq_true_eq]
    push_neg at he
    have hk : ((-e).toNat : ℤ) = -e := Int.toNat_of_nonneg (by omega)
    have h2k : (0 : ℚ) < (2 : ℚ) ^ (-e).toNat := by positivity
    have hden : (0 : ℚ) < (r.den : ℚ) := by exact_mod_cast r.pos
    have hpow : (2 : ℚ) ^ e = ((2 : ℚ) ^ (-e).toNat)⁻¹ := by
      rw [← zpow_natCast (2 : ℚ) (-e).toNat, hk, zpow_neg, inv_inv]
    rw [hpow, ← div_eq_mul_inv, div_lt_iff₀ h2k]
    conv_rhs => rw [← Rat.num_div_den r]
    rw [div_mul_eq_mul_div, lt_div_iff₀ hden]
    constructor <;> intro h <;> exact_mod_cast h

/-- The short-line test holds iff the rounded f32 quotient is finite and
strictly below the threshold. -/
theorem fdivLt_iff_quot (w b : Nat) (r : ℚ) :
    fdivLt w b r = true ↔ ∃ x, f32Quot w b = some x ∧ x < r := by
  unfold fdivLt f32Quot
  by_cases hb : b = 0
  · simp [hb]
  · rw [if_neg hb, if_neg hb]
    rcases hw : roundF32Pos w 1 with _ | ⟨mw, ew⟩ <;>
      rcases hbb : roundF32Pos b 1 with _ | ⟨mb, eb⟩
    · simp
    · simp
    · simp
    · by_cases hmw : mw = 0
      · simp [hmw]
      · rcases hq : roundF32Pos (mw * twoPowNat (max (ew - eb) 0))
            (mb * twoPowNat (max (eb - ew) 0)) with _ | ⟨m, g⟩
        · simp only [hmw]
          rw [hq]
          simp
        · simp only [hmw]
          rw [hq]
          simp [dyadicLtRat_iff]

/-! ## Claims -/

/-- Claim C1, amended: the baseline used by the short-line test is not the
floating-point mean of the trimmed per-line lengths; it is the integer
(floor) division of the sum of the raw, untrimmed per-line byte lengths by
the number of lines, and 0 when there are no lines. -/
theorem claim_c1_amended (text : List Char) :
    avgOf text = ((strLines text).map byteLen).sum / (strLines text).length := by
  by_cases h : (strLines text).length = 0
  · simp [avgOf, checkedDiv, h, Nat.div_zero]
  · simp [avgOf, checkedDiv, h]

/-- Claim C1 counterexample: on the two-line input `"ab\na"` the code's
baseline is `(2 + 1) / 2 = 1` (integer division), not the arithmetic mean
`3/2`; on the one-line input `" a"` the code's baseline is the untrimmed
length 2, not the trimmed length 1. -/
theorem claim_c1_counterexample :
    ((avgOf (String.toList "ab\na") : ℚ) ≠ claimedBaseline (String.toList "ab\na")) ∧
      ((avgOf (String.toList " a") : ℚ) ≠ claimedBaseline (String.toList " a")) := by
  constructor
  · have h1 : avgOf (String.toList "ab\na") = 1 := by decide
    have h2 : strLines (String.toList "ab\na") = [['a', 'b'], ['a']] := by decide
    have h3 : ([['a', 'b'], ['a']].map (fun l => byteLen (trim l))).sum = 3 := by decide
    rw [h1]
    simp only [claimedBaseline, h2, h3]
    norm_num
  · have h1 : avgOf (String.toList " a") = 2 := by decide
    have h2 : strLines (String.toList " a") = [[' ', 'a']] := by decide
    have h3 : ([[' ', 'a']].map (fun l => byteLen (trim l))).sum = 1 := by decide
    rw [h1]
    simp only [claimedBaseline, h2, h3]
    norm_num

/-- Claim C2, amended: the classifier returns true iff BOTH hold: the IEEE
correctly-rounded f32 quotient of the trimmed line's visual width by the
baseline is finite and strictly less than threshold_ratio (for baseline 0
the quotient is infinite or NaN and the test fails), AND the line's last
non-whitespace character is a member of the fixed enumerated set of
sentence-terminating punctuation marks.  The comparison uses the ROUNDED
quotient, not the exact ratio of the claim: the two differ at reachable
inputs (see the counterexample). -/
theorem claim_c2 (line : List Char) (b : Nat) (thr : ℚ)
    (h1 : 0 < thr) (h2 : thr ≤ 1) :
    is_natural_paragraph_break line b thr = true ↔
      ((∃ x, f32Quot (visualWidth (trim line)) b = some x ∧ x < thr) ∧
        ∃ c, lastNonWsChar line = some c ∧ c ∈ sentence_ending_punctuations) := by
  unfold is_natural_paragraph_break
  rw [Bool.and_eq_true, any_endsWith_iff, fdivLt_iff_quot]

/-- Witness for claim C2 at a concrete short punctuated line. -/
theorem claim_c2_witness :
    is_natural_paragraph_break (String.toList "ab.") 10 f32of09 = true ↔
      ((∃ x, f32Quot (visualWidth (trim (String.toList "ab."))) 10 = some x ∧ x < f32of09) ∧
        ∃ c, lastNonWsChar (String.toList "ab.") = some c ∧
          c ∈ sentence_ending_punctuations) :=
  claim_c2 (String.toList "ab.") 10 f32of09 f32of09_pos f32of09_le_one

/-- Claim C2 counterexample: at the line `"a."` (trimmed visual width 2),
baseline 3, and threshold f32(2/3) = 11184811 × 2⁻²⁴ ∈ (0, 1], the program's
classifier returns false — the f32 quotient of 2 by 3 rounds to exactly
11184811 × 2⁻²⁴, which is not strictly below the threshold — even though the
line ends in a period and the EXACT ratio 2/3 IS strictly below the
threshold (2 · 16777216 = 33554432 < 3 · 11184811 = 33554433).  The original
claim's iff, read with exact division, is therefore false. -/
theorem claim_c2_counterexample :
    (0 < f32of2of3 ∧ f32of2of3 ≤ 1) ∧
      is_natural_paragraph_break (String.toList "a.") 3 f32of2of3 = false ∧
      (0 < (3 : ℕ) ∧
        (visualWidth (trim (String.toList "a.")) : ℚ) / ((3 : ℕ) : ℚ) < f32of2of3) ∧
      (∃ c, lastNonWsChar (String.toList "a.") = some c ∧
        c ∈ sentence_ending_punctuations) := by
  refine ⟨⟨by rw [f32of2of3_eq]; norm_num, by rw [f32of2of3_eq]; norm_num⟩,
    by decide, ⟨by norm_num, ?_⟩, ⟨'.', by decide, by decide⟩⟩
  have hw : visualWidth (trim (String.toList "a.")) = 2 := by decide
  rw [hw, f32of2of3_eq]
  norm_num

/-- Claim C7: with a zero baseline the short-line comparison is false (the
IEEE quotient is infinite or NaN, never below the finite threshold), and
hence the classifier returns false. -/
theorem claim_c7 (line : List Char) (thr : ℚ) (h1 : 0 < thr) (h2 : thr ≤ 1) :
    fdivLt (visualWidth (trim line)) 0 thr = false ∧
      is_natural_paragraph_break line 0 thr = false :=
  ⟨rfl, rfl⟩

/-- Witness for claim C7 at a concrete punctuated line and the default
threshold. -/
theorem claim_c7_witness :
    fdivLt (visualWidth (trim (String.toList "ab."))) 0 f32of09 = false ∧
      is_natural_paragraph_break (String.toList "ab.") 0 f32of09 = false :=
  claim_c7 (String.toList "ab.") f32of09 f32of09_pos f32of09_le_one

/-- Claim C9: on the empty input, with or without options, `reflow_text`
returns the empty string, the baseline having resolved to the fallback 0. -/
theorem claim_c9 (options : Option ReflowOptions) :
    reflow_text [] options = [] ∧ avgOf [] = 0 := by
  cases options <;> exact ⟨rfl, rfl⟩

theorem mergerSpec_cons_break (avg : Nat) (thr : ℚ) (line : List Char)
    (rest : List (List Char)) (hbr : is_natural_paragraph_break line avg thr = true) :
    mergerSpec avg thr (line :: rest) = line ++ '\n' :: mergerSpec avg thr rest := by
  cases rest <;> simp [mergerSpec, hbr]

theorem mergerSpec_cons_nonbreak (avg : Nat) (thr : ℚ) (line next : List Char)
    (rest : List (List Char)) (hbr : is_natural_paragraph_break line avg thr = false) :
    mergerSpec avg thr (line :: next :: rest) =
      line ++ ' ' :: mergerSpec avg thr (next :: rest) := by
  simp [mergerSpec, hbr]

/-- One step of the merger loop, the redundant inner branch collapsed. -/
theorem mergeLoop_cons (avg : Nat) (thr : ℚ) (total index : Nat) (line : List Char)
    (rest : List (List Char)) (buffer : List Char) :
    mergeLoop avg thr total index (line :: rest) buffer =
      if is_natural_paragraph_break line avg thr then
        mergeLoop avg thr total (index + 1) rest (buffer ++ line ++ ['\n'])
      else
        mergeLoop avg thr total (index + 1) rest
          (buffer ++ line ++ (if index ≠ total - 1 then [' '] else [])) := by
  rw [mergeLoop, ite_self]

/-- The merger loop, started at any index consistent with the number of
remaining lines, appends exactly the claim's fold to the buffer it carries. -/
theorem mergeLoop_eq (avg : Nat) (thr : ℚ) (total : Nat) (ls : List (List Char)) :
    ∀ (index : Nat) (buffer : List Char), index + ls.length = total →
      mergeLoop avg thr total index ls buffer = buffer ++ mergerSpec avg thr ls := by
  induction ls with
  | nil => intro index buffer h; simp [mergeLoop, mergerSpec]
  | cons line rest ih =>
    intro index buffer h
    rw [mergeLoop_cons]
    by_cases hbr : is_natural_paragraph_break line avg thr = true
    · rw [mergerSpec_cons_break avg thr line rest hbr, if_pos hbr,
        ih (index + 1) (buffer ++ line ++ ['\n']) (by simp at h ⊢; omega)]
      simp
    · rw [Bool.not_eq_true] at hbr
      rw [if_neg (by simp [hbr])]
      cases rest with
      | nil =>
        have hlast : index = total - 1 := by simp at h; omega
        simp [mergeLoop, hbr, hlast, mergerSpec]
      | cons next rest' =>
        have hne : index ≠ total - 1 := by simp at h; omega
        rw [mergerSpec_cons_nonbreak avg thr line next rest' hbr, if_pos hne,
          ih (index + 1) (buffer ++ line ++ [' ']) (by simp at h ⊢; omega)]
        simp

/-- The merger loop of the source equals the fold described by the spec. -/
theorem buildBuffer_eq (avg : Nat) (thr : ℚ) (ls : List (List Char)) :
    buildBuffer avg thr ls = mergerSpec avg thr ls := by
  have h := mergeLoop_eq avg thr ls.length ls 0 [] (by simp)
  simpa [buildBuffer] using h

theorem paraGroups_ne_nil (avg : Nat) (thr : ℚ) (line : List Char)
    (rest : List (List Char)) : paraGroups avg thr (line :: rest) ≠ [] := by
  by_cases hbr : is_natural_paragraph_break line avg thr = true
  · simp [paraGroups, hbr]
  · rw [Bool.not_eq_true] at hbr
    cases h : paraGroups avg thr rest <;> simp [paraGroups, hbr, h]

/-- The paragraph groups partition the input lines, in order. -/
theorem paraGroups_flatten (avg : Nat) (thr : ℚ) (ls : List (List Char)) :
    (paraGroups avg thr ls).flatten = ls := by
  induction ls with
  | nil => rfl
  | cons line rest ih =>
    by_cases hbr : is_natural_paragraph_break line avg thr = true
    · simp [paraGroups, hbr, ih]
    · rw [Bool.not_eq_true] at hbr
      cases h : paraGroups avg thr rest with
      | nil => rw [h] at ih; simp at ih; simp [paraGroups, hbr, h, ← ih]
      | cons g gs => rw [h] at ih; simp at ih ⊢; simp [paraGroups, hbr, h]; simpa using ih

/-- Every paragraph group is nonempty. -/
theorem paraGroups_mem_ne_nil (avg : Nat) (thr : ℚ) (ls : List (List Char)) :
    ∀ g ∈ paraGroups avg thr ls, g ≠ [] := by
  induction ls with
  | nil => simp [paraGroups]
  | cons line rest ih =>
    intro g hg
    by_cases hbr : is_natural_paragraph_break line avg thr = true
    · rw [paraGroups, if_pos hbr] at hg
      rcases List.mem_cons.mp hg with h | h
      · simp [h]
      · exact ih g h
    · rw [Bool.not_eq_true] at hbr
      rw [paraGroups, if_neg (by simp [hbr])] at hg
      cases h : paraGroups avg thr rest with
      | nil => rw [h] at hg; simp at hg; simp [hg]
      | cons g' gs =>
        rw [h] at hg
        rcases List.mem_cons.mp hg with h' | h'
        · simp [h']
        · exact ih g (h ▸ List.mem_cons_of_mem g' h')

theorem endsWithBreak_cons (avg : Nat) (thr : ℚ) (line : List Char)
    (g : List (List Char)) (h : g ≠ []) :
    endsWithBreak avg thr (line :: g) = endsWithBreak avg thr g := by
  cases g with
  | nil => exact absurd rfl h
  | cons x xs => rw [endsWithBreak, endsWithBreak, List.getLast?_cons_cons]

theorem joinSp_cons (line : List Char) (g : List (List Char)) (h : g ≠ []) :
    joinSp (line :: g) = line ++ ' ' :: joinSp g := by
  cases g with
  | nil => exact absurd rfl h
  | cons x xs => rfl

/-- The spec's merger fold renders exactly the paragraph groups: each group's
lines joined by single spaces, a newline after each group that ends with a
break. -/
theorem mergerSpec_eq_renderAll (avg : Nat) (thr : ℚ) (ls : List (List Char)) :
    mergerSpec avg thr ls = renderAll avg thr (paraGroups avg thr ls) := by
  induction ls with
  | nil => rfl
  | cons line rest ih =>
    by_cases hbr : is_natural_paragraph_break line avg thr = true
    · rw [mergerSpec_cons_break avg thr line rest hbr, paraGroups, if_pos hbr,
        renderAll, ih, renderGroup]
      have : endsWithBreak avg thr [line] = true := by simp [endsWithBreak, hbr]
      simp [this, joinSp]
    · rw [Bool.not_eq_true] at hbr
      cases rest with
      | nil =>
        have : endsWithBreak avg thr [line] = false := by simp [endsWithBreak, hbr]
        simp [mergerSpec, hbr, paraGroups, renderAll, renderGroup, this, joinSp]
      | cons next rest' =>
        rw [mergerSpec_cons_nonbreak avg thr line next rest' hbr, ih]
        conv_rhs => rw [paraGroups]
        rw [if_neg (by simp [hbr])]
        cases h : paraGroups avg thr (next :: rest') with
        | nil => exact absurd h (paraGroups_ne_nil avg thr next rest')
        | cons g gs =>
          have hgne : g ≠ [] :=
            paraGroups_mem_ne_nil avg thr (next :: rest') g (h ▸ List.mem_cons_self g gs)
          simp only [renderAll, renderGroup,
            joinSp_cons line g hgne, endsWithBreak_cons avg thr line g hgne]
          simp

/-- All groups except possibly the last end with a break. -/
theorem paraGroups_dropLast_break (avg : Nat) (thr : ℚ) (ls : List (List Char)) :
    ∀ g ∈ (paraGroups avg thr ls).dropLast, endsWithBreak avg thr g = true := by
  induction ls with
  | nil => simp [paraGroups]
  | cons line rest ih =>
    intro g hg
    by_cases hbr : is_natural_paragraph_break line avg thr = true
    · rw [paraGroups, if_pos hbr] at hg
      cases h : paraGroups avg thr rest with
      | nil => rw [h] at hg; simp at hg
      | cons g' gs =>
        rw [h, List.dropLast_cons₂] at hg
        rcases List.mem_cons.mp hg with h' | h'
        · simp [h', endsWithBreak, hbr]
        · exact ih g (h ▸ h')
    · rw [Bool.not_eq_true] at hbr
      rw [paraGroups, if_neg (by simp [hbr])] at hg
      cases h : paraGroups avg thr rest with
      | nil => rw [h] at hg; simp at hg
      | cons g' gs =>
        rw [h] at hg
        cases gs with
        | nil => simp at hg
        | cons y ys =>
          rw [List.dropLast_cons₂] at hg
          have hg'ne : g' ≠ [] :=
            paraGroups_mem_ne_nil avg thr rest g' (h ▸ List.mem_cons_self g' (y :: ys))
          rcases List.mem_cons.mp hg with h' | h'
          · rw [h', endsWithBreak_cons avg thr line g' hg'ne]
            exact ih g' (by rw [h, List.dropLast_cons₂]; exact List.mem_cons_self g' _)
          · exact ih g (by rw [h, List.dropLast_cons₂]; exact List.mem_cons_of_mem g' h')

/-- Claim C3: the merger's intermediate buffer equals the left-to-right fold
that appends a breaking line followed by a newline (whatever the accumulator
holds), and otherwise the line followed by one space except after the last
line overall. -/
theorem claim_c3 (avg : Nat) (thr : ℚ) (ls : List (List Char)) :
    buildBuffer avg thr ls = mergerSpec avg thr ls :=
  buildBuffer_eq avg thr ls

/-- Claim C8, amended: the merger buffer is the concatenation over the
paragraph groups of the group's lines joined by single spaces, each group
that ends with a breaking line being newline-terminated; the groups
partition the input lines in order and are nonempty; every group except
possibly the last ends with a break — but the final paragraph is NOT
newline-terminated when the last input line is not a break. -/
theorem claim_c8_amended (text : List Char) (opts : ReflowOptions) :
    mergerBuffer text opts =
        renderAll (avgOf text) opts.threshold
          (paraGroups (avgOf text) opts.threshold (strLines text)) ∧
      (paraGroups (avgOf text) opts.threshold (strLines text)).flatten = strLines text ∧
      (∀ g ∈ paraGroups (avgOf text) opts.threshold (strLines text), g ≠ []) ∧
      (∀ g ∈ (paraGroups (avgOf text) opts.threshold (strLines text)).dropLast,
        endsWithBreak (avgOf text) opts.threshold g = true) := by
  refine ⟨?_, paraGroups_flatten _ _ _, paraGroups_mem_ne_nil _ _ _,
    paraGroups_dropLast_break _ _ _⟩
  rw [mergerBuffer, buildBuffer_eq, mergerSpec_eq_renderAll]

/-- Claim C8 counterexample: on the one-line input `"a"` the merger produces
the single paragraph `"a"` and its buffer contains no newline at all, so not
every merger paragraph is newline-terminated. -/
theorem claim_c8_counterexample :
    mergerBuffer (String.toList "a") ReflowOptions.default = ['a'] ∧
      strLines (mergerBuffer (String.toList "a") ReflowOptions.default) = [['a']] ∧
      '\n' ∉ mergerBuffer (String.toList "a") ReflowOptions.default :=
  ⟨by decide, by decide, by decide⟩

/-- Claim C10 counterexample: on the three-line test input the baseline is
55 and the third line (trimmed width 40, ending in a period) IS classified as
a natural paragraph break under the default threshold, contradicting the
claim that no line of this input is so classified. -/
theorem claim_c10_counterexample :
    avgOf (String.toList "This is a test of the reflow text function. This text should be\nbroken into multiple lines if the word limit is set to a small\nvalue. This line is intentionally short.") = 55 ∧
      is_natural_paragraph_break (String.toList "value. This line is intentionally short.")
        55 ReflowOptions.default.threshold = true :=
  ⟨by decide, by decide⟩

set_option maxRecDepth 100000 in
/-- Claim C10, amended: with default options the three-line input is merged
into a single paragraph — the three lines joined by single spaces — although
the third (final) line is classified as a natural break; being last, its
terminating newline is the one the final pop removes. -/
theorem claim_c10_amended :
    reflow_text (String.toList "This is a test of the reflow text function. This text should be\nbroken into multiple lines if the word limit is set to a small\nvalue. This line is intentionally short.") none =
      String.toList "This is a test of the reflow text function. This text should be broken into multiple lines if the word limit is set to a small value. This line is intentionally short." := by
  decide

theorem splitNl_ne_nil (l : List Char) : splitNl l ≠ [] := by
  cases l with
  | nil => simp [splitNl]
  | cons c rest =>
    by_cases h : c = '\n'
    · simp [splitNl, h]
    · cases h' : splitNl rest <;> simp [splitNl, h, h']

/-- Joining the split pieces with newlines recovers the text. -/
theorem joinNl_splitNl (b : List Char) : joinNl (splitNl b) = b := by
  induction b with
  | nil => rfl
  | cons c rest ih =>
    by_cases h : c = '\n'
    · subst h
      rw [splitNl, if_pos rfl]
      cases h' : splitNl rest with
      | nil => exact absurd h' (splitNl_ne_nil rest)
      | cons y ys =>
        rw [joinNl]
        rw [h'] at ih
        simp [ih]
    · rw [splitNl, if_neg h]
      cases h' : splitNl rest with
      | nil => exact absurd h' (splitNl_ne_nil rest)
      | cons p ps =>
        rw [h'] at ih
        cases ps with
        | nil => rw [joinNl] at ih ⊢; simp [ih]
        | cons y ys => rw [joinNl] at ih ⊢; simp at ih ⊢; simp [ih]

/-- No split piece contains a newline. -/
theorem splitNl_no_newline (l : List Char) : ∀ p ∈ splitNl l, '\n' ∉ p := by
  induction l with
  | nil => simp [splitNl]
  | cons c rest ih =>
    by_cases h : c = '\n'
    · subst h
      rw [splitNl, if_pos rfl]
      intro p hp
      rcases List.mem_cons.mp hp with h' | h'
      · simp [h']
      · exact ih p h'
    · rw [splitNl, if_neg h]
      cases h' : splitNl rest with
      | nil => exact absurd h' (splitNl_ne_nil rest)
      | cons q ps =>
        intro p hp
        rcases List.mem_cons.mp hp with h'' | h''
        · subst h''
          intro hmem
          rcases List.mem_cons.mp hmem with h3 | h3
          · exact h h3.symm
          · exact ih q (h' ▸ List.mem_cons_self q ps) h3
        · exact ih p (h' ▸ List.mem_cons_of_mem q h'')

/-- Every character of a split piece is a character of the text. -/
theorem splitNl_subset (l : List Char) : ∀ p ∈ splitNl l, ∀ c ∈ p, c ∈ l := by
  induction l with
  | nil => simp [splitNl]
  | cons c rest ih =>
    by_cases h : c = '\n'
    · subst h
      rw [splitNl, if_pos rfl]
      intro p hp d hd
      rcases List.mem_cons.mp hp with h' | h'
      · simp [h'] at hd
      · exact List.mem_cons_of_mem _ (ih p h' d hd)
    · rw [splitNl, if_neg h]
      cases h' : splitNl rest with
      | nil => exact absurd h' (splitNl_ne_nil rest)
      | cons q ps =>
        intro p hp d hd
        rcases List.mem_cons.mp hp with h'' | h''
        · subst h''
          rcases List.mem_cons.mp hd with h3 | h3
          · simp [h3]
          · exact List.mem_cons_of_mem _ (ih q (h' ▸ List.mem_cons_self q ps) d h3)
        · exact List.mem_cons_of_mem _ (ih p (h' ▸ List.mem_cons_of_mem q h'') d hd)

theorem stripCr_eq_of_not_mem (p : List Char) (h : '\r' ∉ p) : stripCr p = p := by
  rw [stripCr]
  by_cases h' : p.getLast? = some '\r'
  · exact absurd (List.mem_of_getLast?_eq_some h') h
  · rw [if_neg h']

theorem getLast?_ne_of_not_mem (p : List Char) (a : Char) (h : a ∉ p) :
    p.getLast? ≠ some a := fun h' => h (List.mem_of_getLast?_eq_some h')

/-- Re-terminating the lines of a nonempty carriage-return-free text
reconstructs the text, plus a final newline when the text did not already
end with one. -/
theorem joinTerm_strLines (b : List Char) (hb : b ≠ []) (hcr : '\r' ∉ b) :
    joinTerm (strLines b) = if b.getLast? = some '\n' then b else b ++ ['\n'] := by
  induction b with
  | nil => exact absurd rfl hb
  | cons c rest ih =>
    cases rest with
    | nil =>
      by_cases h : c = '\n'
      · subst h; rfl
      · have h1 : splitNl [c] = [[c]] := by rw [splitNl, if_neg h]; rfl
        have h2 : strLines [c] = [[c]] := by
          rw [strLines, h1, linesAux, if_neg (by simp)]
        rw [h2]
        have h3 : ([c] : List Char).getLast? ≠ some '\n' := by
          simp only [List.getLast?_singleton]
          simpa using h
        rw [if_neg h3]
        rfl
    | cons r rs =>
      have hrest : (r :: rs : List Char) ≠ [] := by simp
      have hcr' : '\r' ∉ (r :: rs : List Char) := fun hm => hcr (List.mem_cons_of_mem c hm)
      have hcrc : c ≠ '\r' := fun hc => hcr (by simp [hc])
      have ihr := ih hrest hcr'
      have hglcons : (c :: r :: rs : List Char).getLast? = (r :: rs : List Char).getLast? :=
        List.getLast?_cons_cons
      by_cases h : c = '\n'
      · subst h
        have h1 : splitNl ('\n' :: r :: rs) = [] :: splitNl (r :: rs) := by
          rw [splitNl, if_pos rfl]
        cases h' : splitNl (r :: rs) with
        | nil => exact absurd h' (splitNl_ne_nil _)
        | cons y ys =>
          have h2 : strLines ('\n' :: r :: rs) = [] :: strLines (r :: rs) := by
            rw [strLines, h1, h', linesAux, strLines, h']
            rfl
          rw [h2, joinTerm, ihr, hglcons]
          by_cases hg : (r :: rs : List Char).getLast? = some '\n' <;> simp [hg]
      · cases h' : splitNl (r :: rs) with
        | nil => exact absurd h' (splitNl_ne_nil _)
        | cons p ps =>
          have hsplitc : splitNl (c :: r :: rs) = (c :: p) :: ps := by
            rw [splitNl, if_neg h, h']
          have hpmem : p ∈ splitNl (r :: rs) := h' ▸ List.mem_cons_self p ps
          have hpcr : '\r' ∉ p := fun hm => hcr' (splitNl_subset _ p hpmem '\r' hm)
          have hpnl : '\n' ∉ p := splitNl_no_newline _ p hpmem
          have hjp : joinNl (splitNl (r :: rs)) = r :: rs := joinNl_splitNl _
          cases ps with
          | nil =>
            rw [h', joinNl] at hjp
            have hstr : strLines (c :: r :: rs) = [c :: p] := by
              rw [strLines, hsplitc, linesAux, if_neg (by simp)]
            have hgl2 : (c :: r :: rs : List Char).getLast? ≠ some '\n' := by
              rw [hglcons, ← hjp]
              exact getLast?_ne_of_not_mem p '\n' hpnl
            rw [hstr, if_neg hgl2, joinTerm, joinTerm]
            simp [hjp]
          | cons y ys =>
            have hcpcr : '\r' ∉ (c :: p : List Char) := fun hm => by
              rcases List.mem_cons.mp hm with h3 | h3
              · exact hcrc h3.symm
              · exact hpcr h3
            have hstr : strLines (c :: r :: rs) = (c :: p) :: linesAux (y :: ys) := by
              rw [strLines, hsplitc, linesAux, stripCr_eq_of_not_mem _ hcpcr]
            have hstrrest : strLines (r :: rs) = p :: linesAux (y :: ys) := by
              rw [strLines, h', linesAux, stripCr_eq_of_not_mem _ hpcr]
            have hjt : joinTerm (strLines (r :: rs)) =
                p ++ '\n' :: joinTerm (linesAux (y :: ys)) := by
              rw [hstrrest, joinTerm]
            rw [hjt] at ihr
            rw [hstr, joinTerm, hglcons]
            by_cases hg : (r :: rs : List Char).getLast? = some '\n'
            · rw [if_pos hg] at ihr ⊢
              simp only [List.cons_append]
              rw [ihr]
            · rw [if_neg hg] at ihr ⊢
              simp only [List.cons_append]
              rw [ihr]
              simp

theorem joinTerm_append (ps qs : List (List Char)) :
    joinTerm (ps ++ qs) = joinTerm ps ++ joinTerm qs := by
  induction ps with
  | nil => rfl
  | cons p ps ih => simp [joinTerm, ih]

/-- The rewrap fold, from any accumulator, appends the terminated pieces. -/
theorem rewrap_foldl (limit : Nat) (ps : List (List Char)) :
    ∀ acc : List Char,
      ps.foldl
        (fun result paragraph =>
          if paragraph.length ≤ limit then result ++ paragraph ++ ['\n']
          else result ++ joinTerm (wrapGreedy limit paragraph))
        acc = acc ++ joinTerm (rewrapPieces limit ps) := by
  induction ps with
  | nil => intro acc; simp [rewrapPieces, joinTerm]
  | cons p ps ih =>
    intro acc
    rw [List.foldl_cons]
    by_cases hle : p.length ≤ limit
    · rw [if_pos hle, ih, rewrapPieces, if_pos hle, joinTerm_append, joinTerm, joinTerm]
      simp
    · rw [if_neg hle, ih, rewrapPieces, if_neg hle, joinTerm_append]
      simp

/-- The rewrap pass emits exactly the terminated rewrap pieces. -/
theorem rewrap_eq (limit : Nat) (b : List Char) :
    rewrap limit b = joinTerm (rewrapPieces limit (strLines b)) := by
  rw [rewrap, rewrap_foldl]
  rfl

/-- When every paragraph fits, the rewrap pieces are the paragraphs
themselves. -/
theorem rewrapPieces_of_le (limit : Nat) (ps : List (List Char))
    (h : ∀ p ∈ ps, p.length ≤ limit) : rewrapPieces limit ps = ps := by
  induction ps with
  | nil => rfl
  | cons p ps ih =>
    rw [rewrapPieces, if_pos (h p (List.mem_cons_self p ps)),
      ih (fun q hq => h q (List.mem_cons_of_mem p hq))]
    rfl

theorem stripCr_subset (p : List Char) : ∀ c ∈ stripCr p, c ∈ p := by
  intro c hc
  rw [stripCr] at hc
  by_cases h : p.getLast? = some '\r'
  · rw [if_pos h] at hc
    exact List.dropLast_sublist p |>.subset hc
  · rwa [if_neg h] at hc

theorem stripCr_length_le (p : List Char) : (stripCr p).length ≤ p.length := by
  rw [stripCr]
  by_cases h : p.getLast? = some '\r'
  · rw [if_pos h]
    exact (List.dropLast_sublist p).length_le
  · rw [if_neg h]

/-- Every produced line arises from a split piece, possibly with a trailing
carriage return stripped. -/
theorem mem_linesAux (ps : List (List Char)) :
    ∀ q ∈ linesAux ps, ∃ p ∈ ps, ∀ c ∈ q, c ∈ p := by
  induction ps with
  | nil => simp [linesAux]
  | cons p ps ih =>
    cases ps with
    | nil =>
      intro q hq
      rw [linesAux] at hq
      by_cases h : p = ([] : List Char)
      · rw [if_pos h] at hq; simp at hq
      · rw [if_neg h] at hq
        rcases List.mem_singleton.mp hq with rfl
        exact ⟨q, List.mem_cons_self q [], fun c hc => hc⟩
    | cons y ys =>
      intro q hq
      rw [linesAux] at hq
      rcases List.mem_cons.mp hq with h | h
      · exact ⟨p, List.mem_cons_self p (y :: ys), fun c hc => stripCr_subset p c (by rw [← h]; exact hc)⟩
      · rcases ih q h with ⟨p', hp', hsub⟩
        exact ⟨p', List.mem_cons_of_mem p hp', hsub⟩

/-- Every character of a produced line is a character of the text. -/
theorem mem_strLines (t : List Char) : ∀ l ∈ strLines t, ∀ c ∈ l, c ∈ t := by
  intro l hl c hc
  rcases mem_linesAux (splitNl t) l hl with ⟨p, hp, hsub⟩
  exact splitNl_subset t p hp c (hsub c hc)

/-- No produced line contains a newline. -/
theorem strLines_no_newline (t : List Char) : ∀ l ∈ strLines t, '\n' ∉ l := by
  intro l hl hc
  rcases mem_linesAux (splitNl t) l hl with ⟨p, hp, hsub⟩
  exact splitNl_no_newline t p hp (hsub '\n' hc)

/-- Every character of the spec merger's output is a character of some input
line, a separating space, or a paragraph newline. -/
theorem mem_mergerSpec (avg : Nat) (thr : ℚ) (ls : List (List Char)) :
    ∀ c ∈ mergerSpec avg thr ls, (∃ l ∈ ls, c ∈ l) ∨ c = ' ' ∨ c = '\n' := by
  induction ls with
  | nil => simp [mergerSpec]
  | cons line rest ih =>
    intro c hc
    cases rest with
    | nil =>
      rw [mergerSpec] at hc
      by_cases hbr : is_natural_paragraph_break line avg thr = true
      · rw [if_pos hbr] at hc
        rcases List.mem_append.mp hc with h | h
        · exact Or.inl ⟨line, List.mem_cons_self line [], h⟩
        · simp at h; simp [h]
      · rw [if_neg (by simp [hbr])] at hc
        exact Or.inl ⟨line, List.mem_cons_self line [], hc⟩
    | cons next rest' =>
      have step : ∀ sep : Char, c ∈ line ++ sep :: mergerSpec avg thr (next :: rest') →
          (c ∈ line ∨ c = sep ∨ c ∈ mergerSpec avg thr (next :: rest')) := by
        intro sep hmem
        rcases List.mem_append.mp hmem with h | h
        · exact Or.inl h
        · rcases List.mem_cons.mp h with h | h
          · exact Or.inr (Or.inl h)
          · exact Or.inr (Or.inr h)
      rw [mergerSpec] at hc
      by_cases hbr : is_natural_paragraph_break line avg thr = true
      · rw [if_pos hbr] at hc
        rcases step '\n' hc with h | h | h
        · exact Or.inl ⟨line, List.mem_cons_self line _, h⟩
        · simp [h]
        · rcases ih c h with ⟨l, hl, hcl⟩ | h' | h'
          · exact Or.inl ⟨l, List.mem_cons_of_mem line hl, hcl⟩
          · simp [h']
          · simp [h']
      · rw [if_neg (by simp [hbr])] at hc
        rcases step ' ' hc with h | h | h
        · exact Or.inl ⟨line, List.mem_cons_self line _, h⟩
        · simp [h]
        · rcases ih c h with ⟨l, hl, hcl⟩ | h' | h'
          · exact Or.inl ⟨l, List.mem_cons_of_mem line hl, hcl⟩
          · simp [h']
          · simp [h']

/-- Every character of the merger buffer is an input character, a separating
space, or a paragraph newline. -/
theorem mem_mergerBuffer (t : List Char) (opts : ReflowOptions) :
    ∀ c ∈ mergerBuffer t opts, c ∈ t ∨ c = ' ' ∨ c = '\n' := by
  intro c hc
  rw [mergerBuffer, buildBuffer_eq] at hc
  rcases mem_mergerSpec (avgOf t) opts.threshold (strLines t) c hc with ⟨l, hl, hcl⟩ | h | h
  · exact Or.inl (mem_strLines t l hl c hcl)
  · exact Or.inr (Or.inl h)
  · exact Or.inr (Or.inr h)

theorem mergerBuffer_no_cr (t : List Char) (opts : ReflowOptions) (hcr : '\r' ∉ t) :
    '\r' ∉ mergerBuffer t opts := by
  intro hm
  rcases mem_mergerBuffer t opts '\r' hm with h | h | h
  · exact hcr h
  · exact absurd h (by decide)
  · exact absurd h (by decide)

/-- Claim C5, amended: for carriage-return-free input, when every merger
paragraph fits within the limit, `reflow_text` returns the merger buffer with
its single trailing newline removed when the buffer ends in one — it equals
the buffer verbatim only when the final input line was not a break. -/
theorem claim_c5_amended (text : List Char) (o : Option ReflowOptions)
    (hcr : '\r' ∉ text)
    (hle : ∀ p ∈ strLines (mergerBuffer text (o.getD ReflowOptions.default)),
      p.length ≤ (o.getD ReflowOptions.default).para_chars_limit) :
    reflow_text text o = stripNl (mergerBuffer text (o.getD ReflowOptions.default)) := by
  rw [reflow_text]
  rw [rewrap_eq, rewrapPieces_of_le _ _ hle]
  by_cases hb : mergerBuffer text (o.getD ReflowOptions.default) = []
  · rw [hb]
    rfl
  · rw [joinTerm_strLines _ hb (mergerBuffer_no_cr text _ hcr), stripNl]
    by_cases hg : (mergerBuffer text (o.getD ReflowOptions.default)).getLast? = some '\n'
    · rw [if_pos hg, if_pos hg]
    · rw [if_neg hg, if_neg hg, List.dropLast_concat]

/-- Witness for claim C5 at the two-line input `"ab"` with default options. -/
theorem claim_c5_witness :
    reflow_text (String.toList "ab") none =
      stripNl (mergerBuffer (String.toList "ab") ReflowOptions.default) :=
  claim_c5_amended (String.toList "ab") none (by decide) (by decide)

/-- Claim C5 counterexample: on `"aaaaaaaaaa\n."` every merger paragraph fits
the (unbounded) default limit, yet the output differs from the merger buffer
verbatim — the buffer ends with the newline the final pop removes. -/
theorem claim_c5_counterexample :
    (∀ p ∈ strLines (mergerBuffer (String.toList "aaaaaaaaaa\n.") ReflowOptions.default),
        p.length ≤ ReflowOptions.default.para_chars_limit) ∧
      reflow_text (String.toList "aaaaaaaaaa\n.") none ≠
        mergerBuffer (String.toList "aaaaaaaaaa\n.") ReflowOptions.default :=
  ⟨by decide, by decide⟩

theorem chunks_flatten (limit : Nat) (w : List Char) : (chunks limit w).flatten = w := by
  induction w using chunks.induct limit with
  | case1 => simp [chunks]
  | case2 c rest ih =>
    simp only [chunks, List.flatten_cons, ih, List.cons_append, List.take_append_drop]

theorem chunks_length_le (limit : Nat) (hl : 1 ≤ limit) (w : List Char) :
    ∀ ch ∈ chunks limit w, ch.length ≤ limit := by
  induction w using chunks.induct limit with
  | case1 => simp [chunks]
  | case2 c rest ih =>
    intro ch hch
    simp only [chunks] at hch
    rcases List.mem_cons.mp hch with h | h
    · subst h
      simp only [List.length_cons, List.length_take]
      have hmin : (limit - 1) ⊓ rest.length ≤ limit - 1 := min_le_left _ _
      omega
    · exact ih ch h

theorem chunks_subset (limit : Nat) (w : List Char) :
    ∀ ch ∈ chunks limit w, ∀ c ∈ ch, c ∈ w := by
  induction w using chunks.induct limit with
  | case1 => simp [chunks]
  | case2 c rest ih =>
    intro ch hch d hd
    simp only [chunks] at hch
    rcases List.mem_cons.mp hch with h | h
    · subst h
      rcases List.mem_cons.mp hd with h' | h'
      · simp [h']
      · exact List.mem_cons_of_mem c (List.take_subset _ rest h')
    · exact List.mem_cons_of_mem c (List.drop_subset _ rest (ih ch h d hd))

theorem filter_eq_takeWhile_append (p : Char → Bool) (l : List Char) :
    l.filter p = l.takeWhile p ++ (l.dropWhile p).filter p := by
  induction l with
  | nil => rfl
  | cons a l ih =>
    by_cases h : p a
    · rw [List.filter_cons_of_pos h, List.takeWhile_cons_of_pos h,
        List.dropWhile_cons_of_pos h, List.cons_append, ih]
    · rw [List.takeWhile_cons_of_neg (by simpa using h),
        List.dropWhile_cons_of_neg (by simpa using h)]
      rfl

theorem splitWords_flatten (l : List Char) :
    (splitWords l).flatten = l.filter (fun c => !(isRustWhitespace c)) := by
  induction l using splitWords.induct with
  | case1 => simp [splitWords]
  | case2 c rest h ih =>
    rw [splitWords, if_pos h, ih, List.filter_cons_of_neg (by simp [h])]
  | case3 c rest h ih =>
    rw [splitWords, if_neg h, List.flatten_cons, ih,
      List.filter_cons_of_pos (by simp [Bool.not_eq_true] at h ⊢; exact h),
      List.cons_append, ← filter_eq_takeWhile_append]

theorem splitWords_chars (l : List Char) :
    ∀ w ∈ splitWords l, ∀ c ∈ w, c ∈ l ∧ isRustWhitespace c = false := by
  induction l using splitWords.induct with
  | case1 => simp [splitWords]
  | case2 c rest h ih =>
    rw [splitWords, if_pos h]
    intro w hw d hd
    rcases ih w hw d hd with ⟨h1, h2⟩
    exact ⟨List.mem_cons_of_mem c h1, h2⟩
  | case3 c rest h ih =>
    rw [splitWords, if_neg h]
    intro w hw d hd
    rcases List.mem_cons.mp hw with h' | h'
    · subst h'
      rcases List.mem_cons.mp hd with h2 | h2
      · subst h2
        exact ⟨List.mem_cons_self d rest, by simpa using h⟩
      · refine ⟨List.mem_cons_of_mem c ((List.takeWhile_sublist _).subset h2), ?_⟩
        have := List.mem_takeWhile_imp h2
        simpa using this
    · rcases ih w h' d hd with ⟨h1, h2⟩
      exact ⟨List.mem_cons_of_mem c ((List.dropWhile_sublist _).subset h1), h2⟩

theorem fitWords_flatten (limit : Nat) (ws : List (List Char)) :
    (fitWords limit ws).flatten = ws.flatten := by
  induction ws with
  | nil => rfl
  | cons w ws ih =>
    rw [fitWords, List.flatten_append, ih]
    by_cases h : w.length ≤ limit
    · simp [h]
    · simp [h, chunks_flatten]

theorem fitWords_length_le (limit : Nat) (hl : 1 ≤ limit) (ws : List (List Char)) :
    ∀ w' ∈ fitWords limit ws, w'.length ≤ limit := by
  induction ws with
  | nil => simp [fitWords]
  | cons w ws ih =>
    intro w' hw'
    rw [fitWords] at hw'
    rcases List.mem_append.mp hw' with h | h
    · by_cases hle : w.length ≤ limit
      · rw [if_pos hle] at h
        rcases List.mem_singleton.mp h with rfl
        exact hle
      · rw [if_neg hle] at h
        exact chunks_length_le limit hl w w' h
    · exact ih w' h

theorem fitWords_chars (limit : Nat) (ws : List (List Char)) :
    ∀ w' ∈ fitWords limit ws, ∀ c ∈ w', c ∈ ws.flatten := by
  induction ws with
  | nil => simp [fitWords]
  | cons w ws ih =>
    intro w' hw' c hc
    rw [fitWords] at hw'
    rw [List.flatten_cons]
    rcases List.mem_append.mp hw' with h | h
    · by_cases hle : w.length ≤ limit
      · rw [if_pos hle] at h
        rcases List.mem_singleton.mp h with rfl
        exact List.mem_append.mpr (Or.inl hc)
      · rw [if_neg hle] at h
        exact List.mem_append.mpr (Or.inl (chunks_subset limit w w' h c hc))
    · exact List.mem_append.mpr (Or.inr (ih w' h c hc))

theorem packLoop_filter (limit : Nat) (ww : List (List Char)) :
    ∀ cur : List Char,
      (packLoop limit ww cur).flatten.filter (fun c => !(isRustWhitespace c)) =
        cur.filter (fun c => !(isRustWhitespace c)) ++
          ww.flatten.filter (fun c => !(isRustWhitespace c)) := by
  induction ww with
  | nil => intro cur; simp [packLoop]
  | cons w ww ih =>
    intro cur
    have hsp : (fun c => !(isRustWhitespace c)) ' ' = false := by decide
    rw [packLoop]
    by_cases h : cur.length + 1 + w.length ≤ limit
    · rw [if_pos h, ih]
      simp [List.filter_append, List.filter_cons, hsp]
    · rw [if_neg h]
      simp only [List.flatten_cons, List.filter_append, ih w]

theorem packLoop_length_le (limit : Nat) (ww : List (List Char)) :
    ∀ cur : List Char, cur.length ≤ limit → (∀ w ∈ ww, w.length ≤ limit) →
      ∀ l ∈ packLoop limit ww cur, l.length ≤ limit := by
  induction ww with
  | nil =>
    intro cur hcur _ l hl
    rcases List.mem_singleton.mp hl with rfl
    exact hcur
  | cons w ww ih =>
    intro cur hcur hww l hl
    rw [packLoop] at hl
    by_cases h : cur.length + 1 + w.length ≤ limit
    · rw [if_pos h] at hl
      refine ih (cur ++ ' ' :: w) (by simp only [List.length_append, List.length_cons]; omega)
        (fun w' hw' => hww w' (List.mem_cons_of_mem w hw')) l hl
    · rw [if_neg h] at hl
      rcases List.mem_cons.mp hl with h' | h'
      · subst h'; exact hcur
      · exact ih w (hww w (List.mem_cons_self w ww))
          (fun w' hw' => hww w' (List.mem_cons_of_mem w hw')) l h'

theorem packLoop_chars (limit : Nat) (ww : List (List Char)) :
    ∀ cur : List Char, ∀ l ∈ packLoop limit ww cur, ∀ c ∈ l,
      c ∈ cur ∨ c = ' ' ∨ c ∈ ww.flatten := by
  induction ww with
  | nil =>
    intro cur l hl c hc
    rcases List.mem_singleton.mp hl with rfl
    exact Or.inl hc
  | cons w ww ih =>
    intro cur l hl c hc
    rw [packLoop] at hl
    rw [List.flatten_cons]
    by_cases h : cur.length + 1 + w.length ≤ limit
    · rw [if_pos h] at hl
      rcases ih (cur ++ ' ' :: w) l hl c hc with h' | h' | h'
      · rcases List.mem_append.mp h' with h2 | h2
        · exact Or.inl h2
        · rcases List.mem_cons.mp h2 with h3 | h3
          · exact Or.inr (Or.inl h3)
          · exact Or.inr (Or.inr (List.mem_append.mpr (Or.inl h3)))
      · exact Or.inr (Or.inl h')
      · exact Or.inr (Or.inr (List.mem_append.mpr (Or.inr h')))
    · rw [if_neg h] at hl
      rcases List.mem_cons.mp hl with h' | h'
      · subst h'; exact Or.inl hc
      · rcases ih w l h' c hc with h2 | h2 | h2
        · exact Or.inr (Or.inr (List.mem_append.mpr (Or.inl h2)))
        · exact Or.inr (Or.inl h2)
        · exact Or.inr (Or.inr (List.mem_append.mpr (Or.inr h2)))

/-- Wrapping preserves the non-whitespace characters of the paragraph, in
order. -/
theorem wrapGreedy_filter (limit : Nat) (p : List Char) :
    (wrapGreedy limit p).flatten.filter (fun c => !(isRustWhitespace c)) =
      p.filter (fun c => !(isRustWhitespace c)) := by
  rw [wrapGreedy]
  have hflat : (fitWords limit (splitWords p)).flatten =
      p.filter (fun c => !(isRustWhitespace c)) := by
    rw [fitWords_flatten, splitWords_flatten]
  cases h : fitWords limit (splitWords p) with
  | nil =>
    rw [h] at hflat
    simp at hflat ⊢
    exact hflat
  | cons w ww =>
    have hchars : ∀ c ∈ (w :: ww).flatten, (fun c => !(isRustWhitespace c)) c = true := by
      intro c hc
      have hc' : c ∈ (fitWords limit (splitWords p)).flatten := by rw [h]; exact hc
      rcases List.mem_flatten.mp hc' with ⟨w', hw', hcw'⟩
      have hmem := fitWords_chars limit (splitWords p) w' hw' c hcw'
      rw [splitWords_flatten] at hmem
      exact (List.mem_filter.mp hmem).2
    rw [packLoop_filter]
    have hw : w.filter (fun c => !(isRustWhitespace c)) = w :=
      List.filter_eq_self.mpr fun a ha =>
        hchars a (by rw [List.flatten_cons]; exact List.mem_append.mpr (Or.inl ha))
    have hww : ww.flatten.filter (fun c => !(isRustWhitespace c)) = ww.flatten :=
      List.filter_eq_self.mpr fun a ha =>
        hchars a (by rw [List.flatten_cons]; exact List.mem_append.mpr (Or.inr ha))
    rw [hw, hww, ← hflat, h, List.flatten_cons]

/-- Every wrapped line fits within a positive limit. -/
theorem wrapGreedy_length_le (limit : Nat) (hl : 1 ≤ limit) (p : List Char) :
    ∀ l ∈ wrapGreedy limit p, l.length ≤ limit := by
  rw [wrapGreedy]
  cases h : fitWords limit (splitWords p) with
  | nil =>
    intro l hmem
    rcases List.mem_singleton.mp hmem with rfl
    simp
  | cons w ww =>
    intro l hmem
    have hle := fitWords_length_le limit hl (splitWords p)
    rw [h] at hle
    exact packLoop_length_le limit ww w (hle w (List.mem_cons_self w ww))
      (fun w' hw' => hle w' (List.mem_cons_of_mem w hw')) l hmem

/-- Every character of a wrapped line is a paragraph character or an
inserted space. -/
theorem wrapGreedy_chars (limit : Nat) (p : List Char) :
    ∀ l ∈ wrapGreedy limit p, ∀ c ∈ l, c ∈ p ∨ c = ' ' := by
  rw [wrapGreedy]
  cases h : fitWords limit (splitWords p) with
  | nil =>
    intro l hmem c hc
    rcases List.mem_singleton.mp hmem with rfl
    simp at hc
  | cons w ww =>
    intro l hmem c hc
    have hin : ∀ d ∈ (w :: ww).flatten, d ∈ p := by
      intro d hd
      have hd' : d ∈ (fitWords limit (splitWords p)).flatten := by rw [h]; exact hd
      rcases List.mem_flatten.mp hd' with ⟨w', hw', hdw'⟩
      have hmem' := fitWords_chars limit (splitWords p) w' hw' d hdw'
      rw [splitWords_flatten] at hmem'
      exact (List.mem_filter.mp hmem').1
    rcases packLoop_chars limit ww w l hmem c hc with h1 | h1 | h1
    · exact Or.inl (hin c (by rw [List.flatten_cons]; exact List.mem_append.mpr (Or.inl h1)))
    · exact Or.inr h1
    · exact Or.inl (hin c (by rw [List.flatten_cons]; exact List.mem_append.mpr (Or.inr h1)))

/-- Every rewrap piece fits within a positive limit and is newline-free. -/
theorem rewrapPieces_bound (limit : Nat) (hl : 1 ≤ limit) (ps : List (List Char))
    (hnl : ∀ p ∈ ps, '\n' ∉ p) :
    ∀ p' ∈ rewrapPieces limit ps, p'.length ≤ limit ∧ '\n' ∉ p' := by
  induction ps with
  | nil => simp [rewrapPieces]
  | cons p ps ih =>
    intro p' hp'
    rw [rewrapPieces] at hp'
    rcases List.mem_append.mp hp' with h | h
    · by_cases hle : p.length ≤ limit
      · rw [if_pos hle] at h
        rcases List.mem_singleton.mp h with rfl
        exact ⟨hle, hnl p' (List.mem_cons_self p' ps)⟩
      · rw [if_neg hle] at h
        refine ⟨wrapGreedy_length_le limit hl p p' h, fun hm => ?_⟩
        rcases wrapGreedy_chars limit p p' h '\n' hm with h2 | h2
        · exact hnl p (List.mem_cons_self p ps) h2
        · exact absurd h2 (by decide)
    · exact ih (fun r hr => hnl r (List.mem_cons_of_mem p hr)) p' h

theorem splitNl_append_cons (p X : List Char) (h : '\n' ∉ p) :
    splitNl (p ++ '\n' :: X) = p :: splitNl X := by
  induction p with
  | nil => rw [List.nil_append, splitNl, if_pos rfl]
  | cons c p ih =>
    have hc : ¬(c = '\n') := fun h' => h (by simp [h'])
    rw [List.cons_append, splitNl, if_neg hc,
      ih (fun hm => h (List.mem_cons_of_mem c hm))]

theorem splitNl_of_no_newline (q : List Char) (h : '\n' ∉ q) : splitNl q = [q] := by
  induction q with
  | nil => rfl
  | cons c qq ih =>
    have hc : ¬(c = '\n') := fun h' => h (by simp [h'])
    rw [splitNl, if_neg hc, ih (fun hm => h (List.mem_cons_of_mem c hm))]

/-- Splitting the terminated pieces recovers them (modulo the carriage-return
strip of the line iterator). -/
theorem strLines_joinTerm (ps : List (List Char)) (h : ∀ p ∈ ps, '\n' ∉ p) :
    strLines (joinTerm ps) = ps.map stripCr := by
  induction ps with
  | nil => rfl
  | cons p ps ih =>
    rw [joinTerm, strLines, splitNl_append_cons p _ (h p (List.mem_cons_self p ps))]
    cases h' : splitNl (joinTerm ps) with
    | nil => exact absurd h' (splitNl_ne_nil _)
    | cons y ys =>
      rw [linesAux]
      have hrest : linesAux (y :: ys) = strLines (joinTerm ps) := by rw [strLines, h']
      rw [hrest, ih (fun r hr => h r (List.mem_cons_of_mem p hr))]
      rfl

/-- Splitting the terminated pieces followed by a final unterminated piece
recovers them, the final piece verbatim. -/
theorem strLines_joinTerm_append (ps : List (List Char)) (q : List Char)
    (hps : ∀ p ∈ ps, '\n' ∉ p) (hq : '\n' ∉ q) (hqne : q ≠ []) :
    strLines (joinTerm ps ++ q) = ps.map stripCr ++ [q] := by
  induction ps with
  | nil =>
    rw [joinTerm, List.nil_append, strLines, splitNl_of_no_newline q hq, linesAux,
      if_neg hqne]
    rfl
  | cons p ps ih =>
    have hshape : joinTerm (p :: ps) ++ q = p ++ '\n' :: (joinTerm ps ++ q) := by
      rw [joinTerm]
      simp
    rw [hshape, strLines, splitNl_append_cons p _ (hps p (List.mem_cons_self p ps))]
    cases h' : splitNl (joinTerm ps ++ q) with
    | nil => exact absurd h' (splitNl_ne_nil _)
    | cons y ys =>
      rw [linesAux]
      have hrest : linesAux (y :: ys) = strLines (joinTerm ps ++ q) := by rw [strLines, h']
      rw [hrest, ih (fun r hr => hps r (List.mem_cons_of_mem p hr))]
      rfl

/-- The output of the rewrap pass is empty or ends with a newline. -/
theorem joinTerm_getLast? (ps : List (List Char)) :
    joinTerm ps = [] ∨ (joinTerm ps).getLast? = some '\n' := by
  induction ps with
  | nil => exact Or.inl rfl
  | cons p ps ih =>
    right
    rw [joinTerm]
    rcases ih with h | h
    · rw [h]
      exact List.getLast?_concat p
    · have hne : joinTerm ps ≠ [] := fun h0 => by rw [h0] at h; simp at h
      rw [List.getLast?_append_of_ne_nil _ (by simp : ('\n' :: joinTerm ps : List Char) ≠ [])]
      cases hj : joinTerm ps with
      | nil => exact absurd hj hne
      | cons z zs =>
        rw [hj] at h
        rw [List.getLast?_cons_cons]
        exact h

theorem eq_dropLast_append_of_getLast? (x : List Char) (a : Char) (h : x.getLast? = some a) :
    x = x.dropLast ++ [a] := by
  induction x with
  | nil => simp at h
  | cons c rest ih =>
    cases rest with
    | nil =>
      simp at h
      simp [h]
    | cons y ys =>
      rw [List.getLast?_cons_cons] at h
      rw [List.dropLast_cons₂, List.cons_append, ← ih h]

theorem filter_dropLast_of_ends_nl (x : List Char) (h : x = [] ∨ x.getLast? = some '\n') :
    x.dropLast.filter (fun c => !(isRustWhitespace c)) =
      x.filter (fun c => !(isRustWhitespace c)) := by
  rcases h with h | h
  · rw [h]; rfl
  · have hnl : (fun c => !(isRustWhitespace c)) '\n' = false := by decide
    conv_rhs => rw [eq_dropLast_append_of_getLast? x '\n' h]
    rw [List.filter_append]
    simp [hnl]

theorem stripCr_filter (p : List Char) :
    (stripCr p).filter (fun c => !(isRustWhitespace c)) =
      p.filter (fun c => !(isRustWhitespace c)) := by
  rw [stripCr]
  by_cases h : p.getLast? = some '\r'
  · rw [if_pos h]
    have hcr : (fun c => !(isRustWhitespace c)) '\r' = false := by decide
    conv_rhs => rw [eq_dropLast_append_of_getLast? p '\r' h]
    rw [List.filter_append]
    simp [hcr]
  · rw [if_neg h]

theorem splitNl_filter (t : List Char) :
    ((splitNl t).map (List.filter (fun c => !(isRustWhitespace c)))).flatten =
      t.filter (fun c => !(isRustWhitespace c)) := by
  induction t with
  | nil => rfl
  | cons c rest ih =>
    by_cases h : c = '\n'
    · subst h
      rw [splitNl, if_pos rfl, List.map_cons, List.flatten_cons, ih]
      have hnl : (fun c => !(isRustWhitespace c)) '\n' = false := by decide
      rw [List.filter_cons_of_neg (by simp [hnl]), List.filter_nil, List.nil_append]
    · rw [splitNl, if_neg h]
      cases h' : splitNl rest with
      | nil => exact absurd h' (splitNl_ne_nil rest)
      | cons p ps =>
        rw [h'] at ih
        rw [List.map_cons, List.flatten_cons] at ih ⊢
        cases hws : isRustWhitespace c
        · simp only [List.filter_cons, hws, Bool.not_false, if_true, List.cons_append, ih]
        · simp only [List.filter_cons, hws, Bool.not_true, Bool.false_eq_true, if_false, ih]

theorem linesAux_filter (ps : List (List Char)) :
    ((linesAux ps).map (List.filter (fun c => !(isRustWhitespace c)))).flatten =
      (ps.map (List.filter (fun c => !(isRustWhitespace c)))).flatten := by
  induction ps with
  | nil => rfl
  | cons p ps ih =>
    cases ps with
    | nil =>
      rw [linesAux]
      by_cases h : p = ([] : List Char)
      · rw [if_pos h, h]; rfl
      · rw [if_neg h]
    | cons y ys =>
      rw [linesAux, List.map_cons, List.flatten_cons, List.map_cons, List.flatten_cons,
        stripCr_filter, ih]

/-- The non-whitespace characters of the produced lines, concatenated in
order, are the non-whitespace characters of the text. -/
theorem strLines_filter (t : List Char) :
    ((strLines t).map (List.filter (fun c => !(isRustWhitespace c)))).flatten =
      t.filter (fun c => !(isRustWhitespace c)) := by
  rw [strLines, linesAux_filter, splitNl_filter]

/-- The merger inserts only whitespace: its buffer's non-whitespace
characters are those of the lines, concatenated in order. -/
theorem mergerSpec_filter (avg : Nat) (thr : ℚ) (ls : List (List Char)) :
    (mergerSpec avg thr ls).filter (fun c => !(isRustWhitespace c)) =
      (ls.map (List.filter (fun c => !(isRustWhitespace c)))).flatten := by
  have hnl : (fun c => !(isRustWhitespace c)) '\n' = false := by decide
  have hsp : (fun c => !(isRustWhitespace c)) ' ' = false := by decide
  induction ls with
  | nil => rfl
  | cons line rest ih =>
    cases rest with
    | nil =>
      rw [mergerSpec]
      by_cases hbr : is_natural_paragraph_break line avg thr = true
      · rw [if_pos hbr, List.filter_append]
        simp [hnl]
      · rw [if_neg (by simp [hbr])]
        simp
    | cons next rest' =>
      rw [mergerSpec]
      by_cases hbr : is_natural_paragraph_break line avg thr = true
      · rw [if_pos hbr, List.filter_append, List.filter_cons_of_neg (by simp [hnl]), ih]
        simp
      · rw [if_neg (by simp [hbr]), List.filter_append,
          List.filter_cons_of_neg (by simp [hsp]), ih]
        simp

/-- The rewrap terminators are whitespace: the pass keeps the pieces'
non-whitespace characters, in order. -/
theorem joinTerm_filter (ps : List (List Char)) :
    (joinTerm ps).filter (fun c => !(isRustWhitespace c)) =
      (ps.map (List.filter (fun c => !(isRustWhitespace c)))).flatten := by
  have hnl : (fun c => !(isRustWhitespace c)) '\n' = false := by decide
  induction ps with
  | nil => rfl
  | cons p ps ih =>
    rw [joinTerm, List.filter_append, List.filter_cons_of_neg (by simp [hnl]), ih,
      List.map_cons, List.flatten_cons]

/-- Rewrapping pieces preserves their non-whitespace characters, in order. -/
theorem rewrapPieces_filter (limit : Nat) (ps : List (List Char)) :
    ((rewrapPieces limit ps).map (List.filter (fun c => !(isRustWhitespace c)))).flatten =
      (ps.map (List.filter (fun c => !(isRustWhitespace c)))).flatten := by
  induction ps with
  | nil => rfl
  | cons p ps ih =>
    rw [rewrapPieces, List.map_append, List.flatten_append, ih]
    by_cases hle : p.length ≤ limit
    · rw [if_pos hle]
      simp
    · rw [if_neg hle]
      have h1 : ((wrapGreedy limit p).map (List.filter (fun c => !(isRustWhitespace c)))).flatten =
          (wrapGreedy limit p).flatten.filter (fun c => !(isRustWhitespace c)) :=
        (List.filter_flatten _ _).symm
      rw [h1, wrapGreedy_filter]
      simp

/-- All lines of the final output of the rewrap pass (after the pop) fit
within a positive limit. -/
theorem rewrap_lines_le (limit : Nat) (h1 : 0 < limit) (b : List Char) :
    ∀ l ∈ strLines ((rewrap limit b).dropLast), l.length ≤ limit := by
  intro l hl
  rw [rewrap_eq] at hl
  have hnls := strLines_no_newline b
  have hps := rewrapPieces_bound limit h1 (strLines b) hnls
  rcases List.eq_nil_or_concat (rewrapPieces limit (strLines b)) with hnil | ⟨qs, q, hconcat⟩
  · rw [hnil] at hl
    simp [joinTerm, strLines, splitNl, linesAux] at hl
  · rw [hconcat, List.concat_eq_append, joinTerm_append] at hl
    have hq' : joinTerm [q] = q ++ ['\n'] := rfl
    have hdl : (joinTerm qs ++ (q ++ ['\n'])).dropLast = joinTerm qs ++ q := by
      rw [← List.append_assoc, List.dropLast_concat]
    rw [hq', hdl] at hl
    have hmemqs : ∀ p ∈ qs, p ∈ rewrapPieces limit (strLines b) := by
      intro p hp
      rw [hconcat, List.concat_eq_append]
      exact List.mem_append.mpr (Or.inl hp)
    have hmemq : q ∈ rewrapPieces limit (strLines b) := by
      rw [hconcat, List.concat_eq_append]
      exact List.mem_append.mpr (Or.inr (List.mem_singleton.mpr rfl))
    by_cases hqnil : q = []
    · rw [hqnil, List.append_nil,
        strLines_joinTerm qs (fun p hp => (hps p (hmemqs p hp)).2)] at hl
      rcases List.mem_map.mp hl with ⟨p, hp, rfl⟩
      exact le_trans (stripCr_length_le p) (hps p (hmemqs p hp)).1
    · rw [strLines_joinTerm_append qs q (fun p hp => (hps p (hmemqs p hp)).2)
        (hps q hmemq).2 hqnil] at hl
      rcases List.mem_append.mp hl with h | h
      · rcases List.mem_map.mp h with ⟨p, hp, rfl⟩
        exact le_trans (stripCr_length_le p) (hps p (hmemqs p hp)).1
      · rcases List.mem_singleton.mp h with rfl
        exact (hps l hmemq).1

/-- Claim C4: with a finite positive paragraph character limit, every line of
`reflow_text`'s output has character count at most the limit. -/
theorem claim_c4 (text : List Char) (o : Option ReflowOptions)
    (h1 : 0 < (o.getD ReflowOptions.default).para_chars_limit)
    (h2 : (o.getD ReflowOptions.default).para_chars_limit ≠ usizeMax) :
    ∀ l ∈ strLines (reflow_text text o),
      l.length ≤ (o.getD ReflowOptions.default).para_chars_limit := by
  intro l hl
  simp only [reflow_text] at hl
  exact rewrap_lines_le _ h1 _ l hl

/-- Witness for claim C4: a concrete output line of a run with limit 5. -/
theorem claim_c4_witness :
    (String.toList "hi.") ∈
        strLines (reflow_text (String.toList "hi.") (some ⟨f32of09, 5⟩)) ∧
      (String.toList "hi.").length ≤ 5 :=
  ⟨by decide,
    claim_c4 (String.toList "hi.") (some ⟨f32of09, 5⟩) (by decide) (by decide)
      (String.toList "hi.") (by decide)⟩

theorem rewrap_ends (limit : Nat) (b : List Char) :
    rewrap limit b = [] ∨ (rewrap limit b).getLast? = some '\n' := by
  rw [rewrap_eq]
  exact joinTerm_getLast? _

/-- Claim C6: reflowing neither drops nor duplicates non-whitespace content —
the multiset (in fact the sequence) of non-whitespace characters of the
output equals that of the input — and the paragraph groups partition the
input lines in their original order. -/
theorem claim_c6 (text : List Char) (o : Option ReflowOptions) :
    nonWsChars (reflow_text text o) = nonWsChars text ∧
      (paraGroups (avgOf text) (o.getD ReflowOptions.default).threshold (strLines text)).flatten =
        strLines text := by
  refine ⟨?_, paraGroups_flatten _ _ _⟩
  have hlist : (reflow_text text o).filter (fun c => !(isRustWhitespace c)) =
      text.filter (fun c => !(isRustWhitespace c)) := by
    simp only [reflow_text]
    rw [filter_dropLast_of_ends_nl _ (rewrap_ends _ _), rewrap_eq, joinTerm_filter,
      rewrapPieces_filter, strLines_filter, mergerBuffer, buildBuffer_eq,
      mergerSpec_filter, strLines_filter]
  rw [nonWsChars, nonWsChars, hlist]

end TextReflow
